import Mathlib

/-!
Verification of the material loading / merging core of `src/material.py`
(nvdiffmodeling).  The Python functions are embedded shallowly:

* Texture buffers (the repository's `texture.Texture2D`, an external
  collaborator per the spec) are modelled by an explicit resolution plus a
  mip chain of pixel lists.
* `merge_materials` (src/src/material.py, lines 134-200) is embedded as a
  pure function returning `Except MaterialMismatchError _`; Python `assert`
  failures are the error outcomes the spec names `MaterialMismatchError`.
* The `load_mtl` key/value line loop (lines 31-43) is embedded over
  pre-tokenized lines (the regex whitespace split is assumed done).

Machine floats are modelled by `ℚ`; the sizes involved are exact powers of
two and small integers, so `np.ceil(np.log2 _)` on them is exact and is
modelled by `Nat.clog 2`.
-/

set_option maxHeartbeats 1000000

deriving instance DecidableEq for Except

namespace NvdiffMat

/-- Modelled from the spec: a Texture Buffer (`texture.Texture2D`, external
collaborator, spec section 6; the repository's `texture.py` is not under
`src/`).  It carries its resolution `(height, width)` (Python
`getRes() = (h, w)`) and a mip chain: each resolution level is a list of
pixels, each pixel a list of channel values (Python `getMips()`). -/
structure Texture2D where
  height : Nat
  width : Nat
  mips : List (List (List ℚ))
deriving DecidableEq, Inhabited

/-- A Material Record entering the merger: per the spec's data-model
invariant, `kd` and `ks` are always materialized texture buffers by the
time `merge_materials` runs, while `normal` is optional.  Python stores
these as dict entries of the material dict. -/
structure Material where
  name : String
  bsdf : String
  kd : Texture2D
  ks : Texture2D
  normal : Option Texture2D
deriving DecidableEq, Inhabited

/-- The merge precondition failures (Python `assert` statements in
`merge_materials`; the spec calls all of them `MaterialMismatchError`). -/
inductive MaterialMismatchError
  | emptyMaterials
  | bsdfMismatch
  | normalMismatch
deriving DecidableEq, Inhabited

/-- The flat 1x1 normal texture injected by the patch at src lines 140-151:
Python `torch.tensor([[[[0.0, 0.0, 1.0]]]])`, i.e. a single pixel with
channels `(0, 0, 1)`. -/
def flatNormal : Texture2D :=
  { height := 1, width := 1, mips := [[[0, 0, 1]]] }

/-- One material's update inside the patch loop: a material lacking a
normal map receives the flat normal (`m['normal'] = texture.Texture2D(nm)`),
others are untouched. -/
def fillNormal (m : Material) : Material :=
  if m.normal.isSome then m else { m with normal := some flatNormal }

/-- The patch at src lines 140-151: if some materials have a `normal` map
and some do not, inject a flat 1x1 normal into those lacking one.  Python
performs this by in-place dict mutation; the list returned here is the
state of the caller's material list after `merge_materials` runs. -/
def normalizeNormals (ms : List Material) : List Material :=
  if ms.any (fun m => m.normal.isSome) && !(ms.all (fun m => m.normal.isSome)) then
    ms.map fillNormal
  else ms

/-- The state of the caller's input material list after a `merge_materials`
call: the only mutation `merge_materials` performs on the material records
is the in-place normal injection of the patch (src lines 140-151). -/
def materialsAfterMerge (ms : List Material) : List Material :=
  normalizeNormals ms

/-- Resolution of an optional texture slot: `mat[tex].getRes()` when the
slot is present, `[1, 1]` otherwise (src line 168). -/
def slotRes : Option Texture2D → Nat × Nat
  | some t => (t.height, t.width)
  | none => (1, 1)

/-- The three resolutions one material contributes to the scan, in the
source's slot order `['kd', 'ks', 'normal']` (src lines 162-168);
`kd`/`ks` are always present. -/
def matResList (m : Material) : List (Nat × Nat) :=
  [(m.kd.height, m.kd.width), (m.ks.height, m.ks.width), slotRes m.normal]

/-- Elementwise maximum of two resolutions (`np.maximum`). -/
def maxPair (a b : Nat × Nat) : Nat × Nat :=
  (max a.1 b.1, max a.2 b.2)

/-- Maximum texture resolution across all materials and slots
(src lines 164-169).  Folding from `(0, 0)` agrees exactly with the
source's fold from the first element, since `max 0 n = n` on `Nat`. -/
def computeMaxRes (ms : List Material) : Nat × Nat :=
  ms.foldl (fun acc m => (matResList m).foldl maxPair acc) (0, 0)

/-- Fueled helper for `pow2ceil`, written by structural recursion on the
fuel so that it evaluates inside the kernel. -/
def pow2ceilFuel : Nat → Nat → Nat
  | 0, _ => 1
  | fuel + 1, n => if n ≤ 1 then 1 else 2 * pow2ceilFuel fuel ((n + 1) / 2)

/-- Rounding up to the nearest power of two:
`2 ** ceil(log2 n)` (src line 172), exact on positive integers
(`pow2ceil_eq_pow_clog` below identifies it with `2 ^ Nat.clog 2 n`). -/
def pow2ceil (n : Nat) : Nat :=
  pow2ceilFuel n n

/-- Size of the compound texture (src line 172):
`full_res = 2 ** ceil(log2(max_res * [1, len(materials)]))`. -/
def mergeFullRes (ms : List Material) : Nat × Nat :=
  let mr := computeMaxRes ms
  (pow2ceil mr.1, pow2ceil (mr.2 * ms.length))

/-- Scaling values for used / unused texture area (src line 183):
`s_coeff = [full_res[0] / max_res[0], full_res[1] / max_res[1]]`, i.e.
`(sRow, sCol)`. -/
def mergeScale (ms : List Material) : ℚ × ℚ :=
  let mr := computeMaxRes ms
  let fr := mergeFullRes ms
  ((fr.1 : ℚ) / (mr.1 : ℚ), (fr.2 : ℚ) / (mr.2 : ℚ))

/-- Modelled from the spec: `util.scale_img_nhwc` (bilinear resampling,
external collaborator, spec section 6; `util.py` is not under `src/`).
The buffer's resolution becomes the target; resampled pixel content is
abstracted (no claim depends on resampled pixel values). -/
def scale_img_nhwc (t : Texture2D) (res : Nat × Nat) : Texture2D :=
  { t with height := res.1, width := res.2 }

/-- Modelled from the spec: the merged per-slot texture of the uber
material (src lines 175-180).  The cells are the per-material buffers
resampled to `max_res`, concatenated along the width axis in material
order; `_upscale_replicate` pads the result to the `full_res` canvas with
edge replication.  We record the cell list and the canvas resolution; the
flattened pixel layout of concatenation/padding is external buffer
arithmetic. -/
structure Atlas where
  cells : List Texture2D
  canvas : Nat × Nat
deriving DecidableEq, Inhabited

/-- The uber material produced by the merge (src lines 157-160, 175-180). -/
structure UberMaterial where
  name : String
  bsdf : String
  kd : Option Atlas
  ks : Option Atlas
  normal : Option Atlas
deriving DecidableEq, Inhabited

/-- One slot of the uber material (src lines 175-180): built only when the
slot is present in `materials[0]`; each material contributes one cell,
resampled to `max_res`.  `(get m).getD default` models `mat[tex].data`,
whose lookup cannot fail when presence is uniform across the set. -/
def mergeSlot (norm : List Material) (mr fr : Nat × Nat)
    (get : Material → Option Texture2D) : Option Atlas :=
  match get norm.headI with
  | none => none
  | some _ =>
      some { cells := norm.map (fun m => scale_img_nhwc ((get m).getD default) mr),
             canvas := fr }

/-- The per-material precondition checks (src lines 153-155), in source
order: the `bsdf` assert precedes the normal-presence assert. -/
def checkMaterial (m0 m : Material) : Except MaterialMismatchError Unit :=
  if m.bsdf ≠ m0.bsdf then .error .bsdfMismatch
  else if m.normal.isSome ≠ m0.normal.isSome then .error .normalMismatch
  else .ok ()

/-- The `for mat in materials` assert loop (src lines 153-155): the first
failing material determines the error. -/
def checkAll (m0 : Material) : List Material → Except MaterialMismatchError Unit
  | [] => .ok ()
  | m :: rest =>
      match checkMaterial m0 m with
      | .error e => .error e
      | .ok _ => checkAll m0 rest

/-- The rewritten texture coordinate of corner `(ti, matIdx)`
(src lines 195-196):
`[(matIdx + texcoords[ti][0]) / s_coeff[1], texcoords[ti][1] / s_coeff[0]]`.
`tc.getD ti (0, 0)` models `texcoords[ti]`; every claim instantiates it in
range. -/
def uvRemap (tc : List (ℚ × ℚ)) (sRow sCol : ℚ) (c : Nat × Nat) : ℚ × ℚ :=
  let uv := tc.getD c.1 (0, 0)
  (((c.2 : ℚ) + uv.1) / sCol, uv.2 / sRow)

/-- One corner of the UV-rewrite scan (src lines 192-197): state is the
pair (creation-ordered list of seen `(ti, matIdx)` pairs, the
`new_tverts_data` list).  The index assigned to a pair is its position in
the seen list. -/
def stepTVert (tc : List (ℚ × ℚ)) (sRow sCol : ℚ)
    (st : List (Nat × Nat) × List (ℚ × ℚ)) (c : Nat × Nat) :
    List (Nat × Nat) × List (ℚ × ℚ) :=
  if c ∈ st.1 then st
  else (st.1 ++ [c], st.2 ++ [uvRemap tc sRow sCol c])

/-- The full UV-rewrite scan over the corner stream (src lines 186-198). -/
def buildTVerts (tc : List (ℚ × ℚ)) (sRow sCol : ℚ) (cs : List (Nat × Nat)) :
    List (Nat × Nat) × List (ℚ × ℚ) :=
  cs.foldl (stepTVert tc sRow sCol) ([], [])

/-- Definition following the spec's words for claim C3's order clause:
the distinct `(UV index, material index)` pairs of the corner stream,
each kept at its first occurrence — "entry order is first-creation order
during the face scan".  It is compared with the table the source's scan
builds (`buildTVerts`). -/
def firstOccurrences (cs : List (Nat × Nat)) : List (Nat × Nat) :=
  cs.foldl (fun acc c => if c ∈ acc then acc else acc ++ [c]) []

/-- The three `(uv-index, material-index)` corners of one face
(src lines 189-191). -/
def faceCorners (f : Nat × Nat × Nat) (mi : Nat) : List (Nat × Nat) :=
  [(f.1, mi), (f.2.1, mi), (f.2.2, mi)]

/-- The corner stream of the scan: faces in order, three corners each,
each tagged with the face's material index (`matIdx = mfaces[fi]`,
src lines 188-191). -/
def corners (tfaces : List (Nat × Nat × Nat)) (mfaces : List Nat) :
    List (Nat × Nat) :=
  (tfaces.zip mfaces).flatMap (fun p => faceCorners p.1 p.2)

/-- Corner accessor of a face triple. -/
def faceIdx (f : Nat × Nat × Nat) (vi : Fin 3) : Nat :=
  if vi.val = 0 then f.1 else if vi.val = 1 then f.2.1 else f.2.2

/-- Position of the first occurrence of a pair in the seen list (the index
`new_tverts[ti][matIdx]` recorded when the pair was first created). -/
def idxOf (p : Nat × Nat) : List (Nat × Nat) → Nat
  | [] => 0
  | q :: t => if q = p then 0 else idxOf p t + 1

/-- The in-place reindexing `tfaces[fi][vi] = new_tverts[ti][matIdx]`
(src line 198): since entries are only ever appended, the index recorded
at creation time equals the position of the pair in the final seen list. -/
def remapFace (seen : List (Nat × Nat)) (f : Nat × Nat × Nat) (mi : Nat) :
    Nat × Nat × Nat :=
  (idxOf (f.1, mi) seen, idxOf (f.2.1, mi) seen, idxOf (f.2.2, mi) seen)

/-- The texture-coordinate rewrite of the merge (src lines 186-198):
returns `new_tverts_data` and the rewritten `tfaces`. -/
def rewriteFaces (tc : List (ℚ × ℚ)) (sRow sCol : ℚ)
    (tfaces : List (Nat × Nat × Nat)) (mfaces : List Nat) :
    List (ℚ × ℚ) × List (Nat × Nat × Nat) :=
  let st := buildTVerts tc sRow sCol (corners tfaces mfaces)
  (st.2, (tfaces.zip mfaces).map (fun p => remapFace st.1 p.1 p.2))

/-- The uber material built on the success path of `merge_materials`
(src lines 157-180), as a function of the (already normalized) input
materials. -/
def mergeUber (ms : List Material) : UberMaterial :=
  let norm := normalizeNormals ms
  let mr := computeMaxRes norm
  let fr := mergeFullRes norm
  { name := "uber_material"
    bsdf := norm.headI.bsdf
    kd := mergeSlot norm mr fr (fun m => some m.kd)
    ks := mergeSlot norm mr fr (fun m => some m.ks)
    normal := mergeSlot norm mr fr (fun m => m.normal) }

/-- The UV rewrite of the success path of `merge_materials`
(src lines 182-198): `s_coeff` is derived from the normalized materials
(the patch mutates the list the scan reads). -/
def mergeTVerts (ms : List Material) (tc : List (ℚ × ℚ))
    (tfaces : List (Nat × Nat × Nat)) (mfaces : List Nat) :
    List (ℚ × ℚ) × List (Nat × Nat × Nat) :=
  let sc := mergeScale (normalizeNormals ms)
  rewriteFaces tc sc.1 sc.2 tfaces mfaces

/-- `merge_materials` (src lines 134-200).  `assert` failures are the
`Except.error` outcomes; on success the uber material, the new texture
coordinate table and the rewritten faces are returned. -/
def merge_materials (ms : List Material) (tc : List (ℚ × ℚ))
    (tfaces : List (Nat × Nat × Nat)) (mfaces : List Nat) :
    Except MaterialMismatchError
      (UberMaterial × List (ℚ × ℚ) × List (Nat × Nat × Nat)) :=
  if ms.isEmpty then .error .emptyMaterials
  else
    let norm := normalizeNormals ms
    match checkAll norm.headI norm with
    | .error e => .error e
    | .ok _ =>
        .ok (mergeUber ms, (mergeTVerts ms tc tfaces mfaces).1,
             (mergeTVerts ms tc tfaces mfaces).2)

/-! ### The `load_mtl` line loop (src lines 22-71) -/

/-- Does `n` begin `h`?  (List-level prefix test, used to express Python's
substring operator.) -/
def begWith : List Char → List Char → Bool
  | [], _ => true
  | _ :: _, [] => false
  | a :: as, b :: bs => a = b && begWith as bs

/-- Python's substring operator `n in h`: does `n` occur contiguously
inside `h`? -/
def isSubTok (n : List Char) : List Char → Bool
  | [] => n.isEmpty
  | b :: bs => begWith n (b :: bs) || isSubTok n bs

/-- The tuple at src line 40: keys whose value is kept as a raw string
token. -/
def stringValuedKeys : List String :=
  ["bsdf", "map_kd", "map_ks", "bump", "map_ns", "ns", "ka", "refl"]

/-- The dispatch at src line 40:
`any(k in prefix for k in ('bsdf', 'map_kd', ..., 'refl'))` — note Python's
`in` is substring containment, not equality. -/
def isStringKey (key : String) : Bool :=
  stringValuedKeys.any (fun k => isSubTok k.toList key.toList)

/-- Loader failures (`FormatError` in the spec's taxonomy): a `newmtl`
directive with no name token, or a string-valued key with no value token
(Python `data[0]` raising `IndexError`). -/
inductive FormatError
  | missingName
  | missingValue
deriving DecidableEq, Inhabited

/-- A stored value: either the first token as a string (string-valued
keys, src line 41) or the token vector destined for float parsing
(src line 43; the float decoding itself is library behavior and is kept
as the raw tokens here). -/
inductive MtlValue
  | str (s : String)
  | vec (toks : List String)
deriving DecidableEq, Inhabited

/-- A material record under construction: the Python dict, i.e. an
insertion-ordered key/value list where assigning an existing key replaces
its value in place (src lines 37, 41, 43). -/
abbrev RawMaterial := List (String × MtlValue)

/-- Python dict assignment `material[k] = v`: replace in place if the key
exists, else append. -/
def setEntry (rec : RawMaterial) (k : String) (v : MtlValue) : RawMaterial :=
  if rec.any (fun e => e.1 = k) then
    rec.map (fun e => if e.1 = k then (k, v) else e)
  else rec ++ [(k, v)]

/-- The value stored for one non-`newmtl` line (src lines 40-43). -/
def storeVal? (key : String) (args : List String) :
    Except FormatError MtlValue :=
  if isStringKey key then
    match args with
    | [] => .error .missingValue
    | a :: _ => .ok (.str a)
  else .ok (.vec args)

/-- The `newmtl` test at src line 36: `'newmtl' in prefix` — again
substring containment. -/
def isNewMtlKey (key : String) : Bool :=
  isSubTok "newmtl".toList key.toList

/-- ASCII lowercasing of one character: Python `str.lower()` restricted
to ASCII, which covers every key the .mtl format uses. -/
def lowerChar (c : Char) : Char :=
  if 65 ≤ c.toNat ∧ c.toNat ≤ 90 then Char.ofNat (c.toNat + 32) else c

/-- ASCII lowercasing of a token (Python `str.lower()`). -/
def lowerStr (s : String) : String :=
  ⟨s.data.map lowerChar⟩

/-- The key of a tokenized line: its first token, lowercased
(`split_line[0].lower()`, src line 34). -/
def lineKey (ln : List String) : String :=
  lowerStr (ln.headD "")

/-- The parse loop of `load_mtl` (src lines 31-43) over pre-tokenized
lines (each line is its whitespace-split token list; the head token,
lowercased, is the key).  `acc` is the `materials` list built so far; all
key/value lines update the most recently started record, and key/value
lines seen while `acc` is empty (before the first `newmtl`) are skipped
by the `elif materials:` guard. -/
def parseMtlGo (acc : List RawMaterial) :
    List (List String) → Except FormatError (List RawMaterial)
  | [] => .ok acc
  | ln :: rest =>
      if isNewMtlKey (lineKey ln) then
        match ln.tail with
        | [] => .error .missingName
        | nm :: _ => parseMtlGo (acc ++ [[("name", MtlValue.str nm)]]) rest
      else
        match acc with
        | [] => parseMtlGo [] rest
        | _ :: _ =>
            match storeVal? (lineKey ln) ln.tail with
            | .error e => .error e
            | .ok v => parseMtlGo
                (acc.dropLast ++ [setEntry (acc.getLastD []) (lineKey ln) v]) rest

/-- The record list `load_mtl` builds from a token-split file
(src lines 31-43). -/
def load_mtl_records (lines : List (List String)) :
    Except FormatError (List RawMaterial) :=
  parseMtlGo [] lines

/-! ### The `clear_ks` step of `load_mtl` (src lines 66-69) -/

/-- One pixel after `mip[..., 0] = 0.0`: the first channel is overwritten
with zero, the remaining channels are untouched. -/
def clearPixel : List ℚ → List ℚ
  | [] => []
  | _ :: rest => 0 :: rest

/-- The loop `for mip in mat['ks'].getMips(): mip[..., 0] = 0.0`
(src lines 68-69) applied to a texture buffer. -/
def clearChannel0 (t : Texture2D) : Texture2D :=
  { t with mips := t.mips.map (fun mip => mip.map clearPixel) }

/-- The `clear_ks` step of `load_mtl` (src lines 66-69): when the flag is
set (default), the occlusion (first) channel of every mip of `ks` is
zeroed in place. -/
def applyClearKs (clear_ks : Bool) (m : Material) : Material :=
  if clear_ks then { m with ks := clearChannel0 m.ks } else m

/-! ### Concrete sample data used by witnesses and counterexamples -/

/-- A 1x1 all-ones texture buffer. -/
def exTex : Texture2D := ⟨1, 1, [[[1, 1, 1]]]⟩

/-- A 2x3 texture buffer. -/
def exTex23 : Texture2D := ⟨2, 3, [[[1], [1], [1]], [[1], [1], [1]]]⟩

/-- A pbr material without a normal map. -/
def exMatA : Material := ⟨"matA", "pbr", exTex, exTex, none⟩

/-- A pbr material with a normal map. -/
def exMatB : Material := ⟨"matB", "pbr", exTex, exTex, some exTex⟩

/-- A pbr material with a 2x3 diffuse texture and no normal map. -/
def exMatC : Material := ⟨"matC", "pbr", exTex23, exTex, none⟩

/-- A material with a different shader model tag. -/
def exMatD : Material := ⟨"matD", "diffuse", exTex, exTex, none⟩

/-- The uber material of merging `[exMatA]` alone. -/
def exUberA : UberMaterial :=
  { name := "uber_material", bsdf := "pbr",
    kd := some ⟨[exTex], (1, 1)⟩, ks := some ⟨[exTex], (1, 1)⟩, normal := none }

/-! ## Lemmas -/

theorem pow2ceilFuel_eq (fuel n : Nat) (h : n ≤ fuel + 1) :
    pow2ceilFuel fuel n = 2 ^ Nat.clog 2 n := by
  induction fuel generalizing n with
  | zero =>
      interval_cases n <;> simp [pow2ceilFuel]
  | succ fuel ih =>
      rw [pow2ceilFuel]
      by_cases hn : n ≤ 1
      · simp [hn, Nat.clog_of_right_le_one hn]
      · have h2 : 2 ≤ n := by omega
        rw [if_neg hn, Nat.clog_of_two_le one_lt_two h2]
        have e : (n + 2 - 1) / 2 = (n + 1) / 2 := by omega
        rw [e, pow_succ, ih ((n + 1) / 2) (by omega)]
        ring

/-- `pow2ceil` is exactly `2 ^ ceil(log2 n)`. -/
theorem pow2ceil_eq_pow_clog (n : Nat) : pow2ceil n = 2 ^ Nat.clog 2 n :=
  pow2ceilFuel_eq n n (by omega)

/-- `pow2ceil n` is no smaller than `n`. -/
theorem le_pow2ceil (n : Nat) : n ≤ pow2ceil n := by
  rw [pow2ceil_eq_pow_clog]
  exact Nat.le_pow_clog one_lt_two n

/-- `pow2ceil n` is a power of two. -/
theorem pow2ceil_is_pow2 (n : Nat) : ∃ k, pow2ceil n = 2 ^ k :=
  ⟨Nat.clog 2 n, pow2ceil_eq_pow_clog n⟩

/-- `pow2ceil` is positive. -/
theorem pow2ceil_pos (n : Nat) : 0 < pow2ceil n := by
  rw [pow2ceil_eq_pow_clog]; positivity

theorem fillNormal_bsdf (m : Material) : (fillNormal m).bsdf = m.bsdf := by
  unfold fillNormal; split <;> rfl

theorem fillNormal_name (m : Material) : (fillNormal m).name = m.name := by
  unfold fillNormal; split <;> rfl

theorem fillNormal_kd (m : Material) : (fillNormal m).kd = m.kd := by
  unfold fillNormal; split <;> rfl

theorem fillNormal_ks (m : Material) : (fillNormal m).ks = m.ks := by
  unfold fillNormal; split <;> rfl

theorem fillNormal_of_isSome (m : Material) (h : m.normal.isSome) :
    fillNormal m = m := by
  unfold fillNormal; simp [h]

theorem fillNormal_isSome (m : Material) : (fillNormal m).normal.isSome := by
  unfold fillNormal
  split <;> simp_all

theorem normalizeNormals_length (ms : List Material) :
    (normalizeNormals ms).length = ms.length := by
  unfold normalizeNormals; split <;> simp

/-- The normal-injection patch leaves the resolution scan unchanged: an
injected flat normal is 1x1, exactly the default an absent slot
contributes. -/
theorem matResList_fillNormal (m : Material) :
    matResList (fillNormal m) = matResList m := by
  unfold matResList fillNormal
  cases h : m.normal <;> simp [h, slotRes, flatNormal]

theorem computeMaxRes_normalize (ms : List Material) :
    computeMaxRes (normalizeNormals ms) = computeMaxRes ms := by
  unfold normalizeNormals
  split
  · unfold computeMaxRes
    rw [List.foldl_map]
    congr 1
    funext acc m
    rw [matResList_fillNormal]
  · rfl

theorem mergeFullRes_normalize (ms : List Material) :
    mergeFullRes (normalizeNormals ms) = mergeFullRes ms := by
  unfold mergeFullRes
  rw [computeMaxRes_normalize, normalizeNormals_length]

theorem mergeScale_normalize (ms : List Material) :
    mergeScale (normalizeNormals ms) = mergeScale ms := by
  unfold mergeScale
  rw [computeMaxRes_normalize, mergeFullRes_normalize]

theorem normalizeNormals_headI_bsdf (ms : List Material) :
    (normalizeNormals ms).headI.bsdf = ms.headI.bsdf := by
  unfold normalizeNormals
  split
  · cases ms with
    | nil => rfl
    | cons m t => simp [fillNormal_bsdf]
  · rfl

/-- After normalization, normal presence is uniform: every material agrees
with the head. -/
theorem normalizeNormals_uniform (ms : List Material) (m : Material)
    (hm : m ∈ normalizeNormals ms) :
    m.normal.isSome = (normalizeNormals ms).headI.normal.isSome := by
  unfold normalizeNormals at *
  by_cases hc : (ms.any fun m => m.normal.isSome) &&
      !(ms.all fun m => m.normal.isSome)
  · rw [if_pos hc] at hm ⊢
    cases ms with
    | nil => simp at hm
    | cons m0 t =>
        simp only [List.map_cons, List.headI]
        obtain ⟨m', _, rfl⟩ := List.mem_map.1 hm
        rw [fillNormal_isSome, fillNormal_isSome]
  · rw [if_neg hc] at hm ⊢
    cases ms with
    | nil => simp at hm
    | cons m0 t =>
        simp only [List.headI]
        by_cases hAny : ((m0 :: t).any fun m => m.normal.isSome) = true
        · have hAll : ((m0 :: t).all fun m => m.normal.isSome) = true := by
            by_contra hAllF
            exact hc (by simp_all)
          have h1 := List.all_eq_true.1 hAll
          rw [h1 m hm, h1 m0 (by simp)]
        · have hAnyF : ((m0 :: t).any fun m => m.normal.isSome) = false :=
            Bool.eq_false_iff.mpr hAny
          have h1 := List.any_eq_false.1 hAnyF
          have e : ∀ x ∈ m0 :: t, x.normal.isSome = false :=
            fun x hx => Bool.eq_false_iff.mpr (h1 x hx)
          rw [e m hm, e m0 (by simp)]

theorem checkMaterial_ok_iff (m0 m : Material) :
    checkMaterial m0 m = .ok () ↔
      m.bsdf = m0.bsdf ∧ m.normal.isSome = m0.normal.isSome := by
  unfold checkMaterial
  split
  · simp_all
  · split <;> simp_all

theorem checkAll_ok_iff (m0 : Material) (l : List Material) :
    checkAll m0 l = .ok () ↔ ∀ m ∈ l, checkMaterial m0 m = .ok () := by
  induction l with
  | nil => simp [checkAll]
  | cons m t ih =>
      rw [checkAll]
      cases hc : checkMaterial m0 m with
      | error e => simp [hc, ih]
      | ok u => cases u; simp [hc, ih]

theorem checkAll_ok_or_error (m0 : Material) (l : List Material) :
    checkAll m0 l = .ok () ∨ ∃ e, checkAll m0 l = .error e := by
  cases h : checkAll m0 l with
  | error e => exact .inr ⟨e, rfl⟩
  | ok u => cases u; exact .inl rfl

/-- Inversion principle for a successful merge. -/
theorem merge_materials_ok_iff (ms : List Material) (tc : List (ℚ × ℚ))
    (tfaces : List (Nat × Nat × Nat)) (mfaces : List Nat)
    (uber : UberMaterial) (ntc : List (ℚ × ℚ)) (ntf : List (Nat × Nat × Nat)) :
    merge_materials ms tc tfaces mfaces = .ok (uber, ntc, ntf) ↔
      (ms ≠ [] ∧
       checkAll (normalizeNormals ms).headI (normalizeNormals ms) = .ok () ∧
       uber = mergeUber ms ∧
       ntc = (mergeTVerts ms tc tfaces mfaces).1 ∧
       ntf = (mergeTVerts ms tc tfaces mfaces).2) := by
  unfold merge_materials
  by_cases hE : ms.isEmpty
  · simp only [if_pos hE]
    simp [List.isEmpty_iff.1 hE]
  · simp only [if_neg hE]
    have hne : ms ≠ [] := by simpa [List.isEmpty_iff] using hE
    cases hc : checkAll (normalizeNormals ms).headI (normalizeNormals ms) with
    | error e => simp [hc, hne]
    | ok u =>
        cases u
        simp only [hc]
        constructor
        · intro h
          injection h with h
          refine ⟨hne, by simp [hc], ?_, ?_, ?_⟩
          · exact (congrArg Prod.fst h).symm
          · exact (congrArg (fun p => p.2.1) h).symm
          · exact (congrArg (fun p => p.2.2) h).symm
        · rintro ⟨-, -, rfl, rfl, rfl⟩
          rfl

/-- Invariant of the UV-rewrite fold: the data list is the image of the
seen-pair list under the remap formula, the seen list is duplicate-free,
and the seen pairs are exactly the pairs processed so far. -/
theorem buildTVerts_go (tc : List (ℚ × ℚ)) (sRow sCol : ℚ)
    (cs : List (Nat × Nat)) (st : List (Nat × Nat) × List (ℚ × ℚ))
    (hd : st.2 = st.1.map (uvRemap tc sRow sCol)) (hn : st.1.Nodup) :
    (cs.foldl (stepTVert tc sRow sCol) st).2 =
        (cs.foldl (stepTVert tc sRow sCol) st).1.map (uvRemap tc sRow sCol) ∧
    (cs.foldl (stepTVert tc sRow sCol) st).1.Nodup ∧
    (cs.foldl (stepTVert tc sRow sCol) st).1.toFinset =
        st.1.toFinset ∪ cs.toFinset := by
  induction cs generalizing st with
  | nil => simpa using ⟨hd, hn⟩
  | cons c cs ih =>
      rw [List.foldl_cons]
      by_cases hc : c ∈ st.1
      · have hstep : stepTVert tc sRow sCol st c = st := by
          simp [stepTVert, hc]
        rw [hstep]
        obtain ⟨h1, h2, h3⟩ := ih st hd hn
        refine ⟨h1, h2, ?_⟩
        have hcf : c ∈ st.1.toFinset ∪ cs.toFinset :=
          Finset.mem_union_left _ (List.mem_toFinset.2 hc)
        rw [h3, List.toFinset_cons, Finset.union_insert,
          Finset.insert_eq_self.2 hcf]
      · have hstep : stepTVert tc sRow sCol st c =
            (st.1 ++ [c], st.2 ++ [uvRemap tc sRow sCol c]) := by
          simp [stepTVert, hc]
        rw [hstep]
        obtain ⟨h1, h2, h3⟩ := ih (st.1 ++ [c], st.2 ++ [uvRemap tc sRow sCol c])
          (by simp [hd]) (by simp [List.nodup_append, hn, hc])
        refine ⟨h1, h2, ?_⟩
        rw [h3, List.toFinset_append, Finset.union_assoc]
        congr 1
        ext x
        simp

theorem buildTVerts_spec (tc : List (ℚ × ℚ)) (sRow sCol : ℚ)
    (cs : List (Nat × Nat)) :
    (buildTVerts tc sRow sCol cs).2 =
        (buildTVerts tc sRow sCol cs).1.map (uvRemap tc sRow sCol) ∧
    (buildTVerts tc sRow sCol cs).1.Nodup ∧
    (buildTVerts tc sRow sCol cs).1.toFinset = cs.toFinset := by
  have h := buildTVerts_go tc sRow sCol cs ([], []) rfl (by simp)
  simpa [buildTVerts] using h

theorem buildTVerts_mem (tc : List (ℚ × ℚ)) (sRow sCol : ℚ)
    (cs : List (Nat × Nat)) (c : Nat × Nat) (hc : c ∈ cs) :
    c ∈ (buildTVerts tc sRow sCol cs).1 := by
  obtain ⟨-, -, hfin⟩ := buildTVerts_spec tc sRow sCol cs
  rw [← List.mem_toFinset, hfin, List.mem_toFinset]
  exact hc

theorem idxOf_getElem? (p : Nat × Nat) (l : List (Nat × Nat)) (h : p ∈ l) :
    l[idxOf p l]? = some p := by
  induction l with
  | nil => simp at h
  | cons q t ih =>
      rw [idxOf]
      by_cases hq : q = p
      · simp [hq]
      · have hp : p ∈ t := by
          rcases List.mem_cons.1 h with h' | h'
          · exact absurd h'.symm hq
          · exact h'
        simp [hq, ih hp]

/-- Looking up the new index assigned to a processed pair returns its
remapped texture coordinate. -/
theorem buildTVerts_lookup (tc : List (ℚ × ℚ)) (sRow sCol : ℚ)
    (cs : List (Nat × Nat)) (c : Nat × Nat) (hc : c ∈ cs) :
    (buildTVerts tc sRow sCol cs).2[idxOf c (buildTVerts tc sRow sCol cs).1]? =
      some (uvRemap tc sRow sCol c) := by
  obtain ⟨hmap, -, -⟩ := buildTVerts_spec tc sRow sCol cs
  have hmem := buildTVerts_mem tc sRow sCol cs c hc
  rw [hmap, List.getElem?_map, idxOf_getElem? c _ hmem, Option.map_some']

theorem faceIdx_remapFace (seen : List (Nat × Nat)) (f : Nat × Nat × Nat)
    (mi : Nat) (vi : Fin 3) :
    faceIdx (remapFace seen f mi) vi = idxOf (faceIdx f vi, mi) seen := by
  fin_cases vi <;> simp [faceIdx, remapFace]

theorem faceIdx_mem_faceCorners (f : Nat × Nat × Nat) (mi : Nat) (vi : Fin 3) :
    (faceIdx f vi, mi) ∈ faceCorners f mi := by
  fin_cases vi <;> simp [faceIdx, faceCorners]

/-- Every corner of every face of the scan occurs in the corner stream. -/
theorem corner_mem_corners (tfaces : List (Nat × Nat × Nat))
    (mfaces : List Nat) (fi : Nat) (f : Nat × Nat × Nat) (mi : Nat)
    (vi : Fin 3) (hfm : (tfaces.zip mfaces)[fi]? = some (f, mi)) :
    (faceIdx f vi, mi) ∈ corners tfaces mfaces := by
  unfold corners
  exact List.mem_flatMap.2 ⟨(f, mi), List.getElem?_mem hfm,
    faceIdx_mem_faceCorners f mi vi⟩

/-- Central corner lemma: under a successful merge, following a rewritten
face corner's index into the new texture-coordinate table yields exactly
the remap formula applied to the corner's original UV index and the
face's material index. -/
theorem mergeTVerts_corner (ms : List Material) (tc : List (ℚ × ℚ))
    (tfaces : List (Nat × Nat × Nat)) (mfaces : List Nat) (fi : Nat)
    (f : Nat × Nat × Nat) (mi : Nat) (vi : Fin 3) (nf : Nat × Nat × Nat)
    (hfm : (tfaces.zip mfaces)[fi]? = some (f, mi))
    (hnf : (mergeTVerts ms tc tfaces mfaces).2[fi]? = some nf) :
    (mergeTVerts ms tc tfaces mfaces).1[faceIdx nf vi]? =
      some (uvRemap tc (mergeScale (normalizeNormals ms)).1
        (mergeScale (normalizeNormals ms)).2 (faceIdx f vi, mi)) := by
  unfold mergeTVerts rewriteFaces at hnf ⊢
  simp only [List.getElem?_map, hfm, Option.map_some'] at hnf
  have hnf' : nf = remapFace
      (buildTVerts tc (mergeScale (normalizeNormals ms)).1
        (mergeScale (normalizeNormals ms)).2 (corners tfaces mfaces)).1 f mi := by
    exact (Option.some.injEq .. ▸ hnf.symm)
  rw [hnf', faceIdx_remapFace]
  exact buildTVerts_lookup tc _ _ (corners tfaces mfaces) (faceIdx f vi, mi)
    (corner_mem_corners tfaces mfaces fi f mi vi hfm)

/-- Uniformity of `bsdf` over the normalized list is uniformity over the
original list (normalization never changes `bsdf`). -/
theorem normalizeNormals_bsdf_iff (ms : List Material) (b : String) :
    (∀ m ∈ normalizeNormals ms, m.bsdf = b) ↔ ∀ m ∈ ms, m.bsdf = b := by
  unfold normalizeNormals
  split
  · constructor
    · intro h m hm
      have := h (fillNormal m) (List.mem_map_of_mem _ hm)
      rwa [fillNormal_bsdf] at this
    · intro h m hm
      obtain ⟨m0, hm0, rfl⟩ := List.mem_map.1 hm
      rw [fillNormal_bsdf]
      exact h m0 hm0
  · exact Iff.rfl

/-- For a nonempty material list, the precondition scan succeeds exactly
when the shader model is uniform: the normal-presence check is never the
culprit after normalization. -/
theorem checkAll_norm_ok_iff (ms : List Material) :
    checkAll (normalizeNormals ms).headI (normalizeNormals ms) = .ok () ↔
      ∀ m ∈ ms, m.bsdf = ms.headI.bsdf := by
  rw [checkAll_ok_iff]
  constructor
  · intro h
    rw [← normalizeNormals_headI_bsdf, ← normalizeNormals_bsdf_iff]
    intro m hm
    exact ((checkMaterial_ok_iff _ m).1 (h m hm)).1
  · intro h m hm
    rw [checkMaterial_ok_iff]
    refine ⟨?_, normalizeNormals_uniform ms m hm⟩
    rw [normalizeNormals_headI_bsdf]
    exact (normalizeNormals_bsdf_iff ms ms.headI.bsdf).2 h m hm

/-- The precondition scan can only report a shader-model or
normal-presence mismatch, never the empty-input error. -/
theorem checkAll_error_elim (m0 : Material) (l : List Material)
    (e : MaterialMismatchError) (h : checkAll m0 l = .error e) :
    e = .bsdfMismatch ∨ e = .normalMismatch := by
  induction l with
  | nil => simp [checkAll] at h
  | cons m t ih =>
      rw [checkAll] at h
      cases hc : checkMaterial m0 m with
      | error e' =>
          rw [hc] at h
          injection h with h
          subst h
          unfold checkMaterial at hc
          split at hc
          · exact .inl (Except.error.injEq .. ▸ hc.symm)
          · split at hc
            · exact .inr (Except.error.injEq .. ▸ hc.symm)
            · simp at hc
      | ok u => cases u; rw [hc] at h; exact ih h

/-- If some material lacks a normal slot, filling makes the list differ. -/
theorem map_fillNormal_ne (ms : List Material) (m : Material) (hm : m ∈ ms)
    (hnone : m.normal = none) : ms.map fillNormal ≠ ms := by
  induction ms with
  | nil => simp at hm
  | cons m0 t ih =>
      intro h
      rw [List.map_cons] at h
      injection h with h1 h2
      rcases List.mem_cons.1 hm with rfl | hm'
      · rw [fillNormal] at h1
        rw [hnone] at h1
        simp at h1
        have := congrArg Material.normal h1
        simp [hnone] at this
      · exact ih hm' h2

/-- The seen-pair list the source's scan builds is exactly the corner
stream's distinct pairs in first-creation order. -/
theorem buildTVerts_seen_go (tc : List (ℚ × ℚ)) (sRow sCol : ℚ)
    (cs : List (Nat × Nat)) (st : List (Nat × Nat) × List (ℚ × ℚ)) :
    (cs.foldl (stepTVert tc sRow sCol) st).1 =
      cs.foldl (fun acc c => if c ∈ acc then acc else acc ++ [c]) st.1 := by
  induction cs generalizing st with
  | nil => rfl
  | cons c cs ih =>
      rw [List.foldl_cons, List.foldl_cons, ih]
      by_cases hc : c ∈ st.1
      · rw [if_pos hc]
        have hstep : stepTVert tc sRow sCol st c = st := by
          simp [stepTVert, hc]
        rw [hstep]
      · rw [if_neg hc]
        have hstep : stepTVert tc sRow sCol st c =
            (st.1 ++ [c], st.2 ++ [uvRemap tc sRow sCol c]) := by
          simp [stepTVert, hc]
        rw [hstep]

theorem buildTVerts_seen_eq (tc : List (ℚ × ℚ)) (sRow sCol : ℚ)
    (cs : List (Nat × Nat)) :
    (buildTVerts tc sRow sCol cs).1 = firstOccurrences cs :=
  buildTVerts_seen_go tc sRow sCol cs ([], [])

/-- `idxOf` is injective on the list's members: two members with the same
first-occurrence position are the same pair. -/
theorem idxOf_inj (l : List (Nat × Nat)) (p q : Nat × Nat)
    (hp : p ∈ l) (hq : q ∈ l) (h : idxOf p l = idxOf q l) : p = q := by
  have h1 := idxOf_getElem? p l hp
  have h2 := idxOf_getElem? q l hq
  rw [h, h2] at h1
  exact (Option.some_inj.1 h1).symm

/-- The rewritten face triple at scan position `fi` is the original
triple reindexed through the seen-pair list. -/
theorem mergeTVerts_face (ms : List Material) (tc : List (ℚ × ℚ))
    (tfaces : List (Nat × Nat × Nat)) (mfaces : List Nat) (fi : Nat)
    (f : Nat × Nat × Nat) (mi : Nat) (nf : Nat × Nat × Nat)
    (hfm : (tfaces.zip mfaces)[fi]? = some (f, mi))
    (hnf : (mergeTVerts ms tc tfaces mfaces).2[fi]? = some nf) :
    nf = remapFace (buildTVerts tc (mergeScale (normalizeNormals ms)).1
        (mergeScale (normalizeNormals ms)).2 (corners tfaces mfaces)).1 f mi := by
  unfold mergeTVerts rewriteFaces at hnf
  simp only [List.getElem?_map, hfm, Option.map_some'] at hnf
  exact (Option.some_inj.1 hnf).symm

/-! ## Claims -/

/-- Claim C1 (confirmed): for every merge call, every face and each of its
three corners with original UV pair `(u, v)` and face material index `i`,
the rewritten texture coordinate equals
`((i + u) / sCol, v / sRow)` with `(sRow, sCol) = mergeScale`, i.e.
`sRow = fullRes.height / maxRes.height`,
`sCol = fullRes.width / maxRes.width` — the u axis maps to the atlas
width/column axis, v to the height/row axis. -/
theorem merge_uv_rewrite_formula (ms : List Material) (tc : List (ℚ × ℚ))
    (tfaces : List (Nat × Nat × Nat)) (mfaces : List Nat)
    (uber : UberMaterial) (ntc : List (ℚ × ℚ)) (ntf : List (Nat × Nat × Nat))
    (hok : merge_materials ms tc tfaces mfaces = .ok (uber, ntc, ntf))
    (fi : Nat) (f : Nat × Nat × Nat) (mi : Nat) (vi : Fin 3)
    (nf : Nat × Nat × Nat) (u v : ℚ)
    (hfm : (tfaces.zip mfaces)[fi]? = some (f, mi))
    (hnf : ntf[fi]? = some nf)
    (htc : tc[faceIdx f vi]? = some (u, v)) :
    ntc[faceIdx nf vi]? =
      some (((mi : ℚ) + u) / (mergeScale ms).2, v / (mergeScale ms).1) := by
  obtain ⟨-, -, -, hntc, hntf⟩ :=
    (merge_materials_ok_iff ms tc tfaces mfaces uber ntc ntf).1 hok
  subst hntc hntf
  have h := mergeTVerts_corner ms tc tfaces mfaces fi f mi vi nf hfm hnf
  rw [mergeScale_normalize] at h
  rw [h]
  have hget : tc.getD (faceIdx f vi) (0, 0) = (u, v) := by
    rw [List.getD_eq_getElem?_getD, htc, Option.getD_some]
  simp only [uvRemap, hget]

/-- Witness for C1: a concrete one-material merge with UV `(1/2, 1/3)`. -/
theorem merge_uv_rewrite_formula_witness :
    [((1:ℚ)/2, (1:ℚ)/3)][faceIdx (0, 0, 0) (0 : Fin 3)]? =
      some ((((0:Nat) : ℚ) + (1:ℚ)/2) / (mergeScale [exMatA]).2,
        ((1:ℚ)/3) / (mergeScale [exMatA]).1) :=
  merge_uv_rewrite_formula [exMatA] [((1:ℚ)/2, (1:ℚ)/3)] [(0,0,0)] [0]
    exUberA [((1:ℚ)/2, (1:ℚ)/3)] [(0,0,0)]
    (by simp [merge_materials, mergeUber, mergeTVerts, mergeScale, mergeFullRes,
      computeMaxRes, matResList, maxPair, slotRes, normalizeNormals, fillNormal,
      pow2ceil, pow2ceilFuel, mergeSlot, scale_img_nhwc, rewriteFaces, buildTVerts,
      stepTVert, corners, faceCorners, uvRemap, checkAll, checkMaterial, remapFace,
      idxOf, exMatA, exTex, exUberA, List.zip])
    0 (0, 0, 0) 0 (0 : Fin 3) (0, 0, 0) ((1:ℚ)/2) ((1:ℚ)/3) rfl rfl rfl

/-- Claim C3 (confirmed): after any merge, the new texture-coordinate
table has exactly as many entries as the number of distinct
(original UV index, material index) pairs across all face corners; its
entries are exactly those distinct pairs in first-creation order during
the face scan (each remapped by the UV formula); and two rewritten
corners reference the same entry iff their (UV index, material index)
pairs coincide — a recurring pair reuses the previously created entry,
while the same UV index under two material indices gets two distinct
entries. -/
theorem merge_dedup_invariant (ms : List Material) (tc : List (ℚ × ℚ))
    (tfaces : List (Nat × Nat × Nat)) (mfaces : List Nat)
    (uber : UberMaterial) (ntc : List (ℚ × ℚ)) (ntf : List (Nat × Nat × Nat))
    (hok : merge_materials ms tc tfaces mfaces = .ok (uber, ntc, ntf)) :
    ntc.length = (corners tfaces mfaces).toFinset.card ∧
    ntc = (firstOccurrences (corners tfaces mfaces)).map
      (uvRemap tc (mergeScale ms).1 (mergeScale ms).2) ∧
    (∀ fi fj : Nat, ∀ fa : Nat × Nat × Nat, ∀ mia : Nat,
      ∀ fb : Nat × Nat × Nat, ∀ mib : Nat, ∀ va vb : Fin 3,
      ∀ nfa nfb : Nat × Nat × Nat,
      (tfaces.zip mfaces)[fi]? = some (fa, mia) →
      (tfaces.zip mfaces)[fj]? = some (fb, mib) →
      ntf[fi]? = some nfa → ntf[fj]? = some nfb →
      (faceIdx nfa va = faceIdx nfb vb ↔
        (faceIdx fa va, mia) = (faceIdx fb vb, mib))) := by
  obtain ⟨-, -, -, hntc, hntf⟩ :=
    (merge_materials_ok_iff ms tc tfaces mfaces uber ntc ntf).1 hok
  subst hntc hntf
  obtain ⟨hmap, hnd, hfin⟩ := buildTVerts_spec tc
    (mergeScale (normalizeNormals ms)).1 (mergeScale (normalizeNormals ms)).2
    (corners tfaces mfaces)
  refine ⟨?_, ?_, ?_⟩
  · unfold mergeTVerts rewriteFaces
    simp only []
    rw [hmap, List.length_map, ← List.toFinset_card_of_nodup hnd, hfin]
  · unfold mergeTVerts rewriteFaces
    simp only []
    rw [hmap, buildTVerts_seen_eq, mergeScale_normalize]
  · intro fi fj fa mia fb mib va vb nfa nfb hfa hfb hna hnb
    have ha := mergeTVerts_face ms tc tfaces mfaces fi fa mia nfa hfa hna
    have hb := mergeTVerts_face ms tc tfaces mfaces fj fb mib nfb hfb hnb
    have hma : (faceIdx fa va, mia) ∈ (buildTVerts tc
        (mergeScale (normalizeNormals ms)).1 (mergeScale (normalizeNormals ms)).2
        (corners tfaces mfaces)).1 :=
      buildTVerts_mem tc _ _ (corners tfaces mfaces) _
        (corner_mem_corners tfaces mfaces fi fa mia va hfa)
    have hmb : (faceIdx fb vb, mib) ∈ (buildTVerts tc
        (mergeScale (normalizeNormals ms)).1 (mergeScale (normalizeNormals ms)).2
        (corners tfaces mfaces)).1 :=
      buildTVerts_mem tc _ _ (corners tfaces mfaces) _
        (corner_mem_corners tfaces mfaces fj fb mib vb hfb)
    rw [ha, hb, faceIdx_remapFace, faceIdx_remapFace]
    constructor
    · intro h
      exact idxOf_inj _ _ _ hma hmb h
    · intro h
      rw [h]

/-- Witness for C3: two materials sharing one UV triple across two faces
yield six distinct (UV index, material index) pairs and six entries, and
corner 0 of face 1 (pair `(0, 1)`) gets an entry distinct from corner 0
of face 0 (pair `(0, 0)`). -/
theorem merge_dedup_invariant_witness :
    (([(0, 0), ((1:ℚ)/2, 0), (0, 1), ((1:ℚ)/2, 0), (1, 0), ((1:ℚ)/2, 1)] :
        List (ℚ × ℚ)).length =
      (corners [(0,1,2), (0,1,2)] [0, 1]).toFinset.card) ∧
    (faceIdx (3, 4, 5) (0 : Fin 3) = faceIdx (0, 1, 2) (0 : Fin 3) ↔
      ((faceIdx (0, 1, 2) (0 : Fin 3), 1) = (faceIdx (0, 1, 2) (0 : Fin 3), 0))) := by
  have h := merge_dedup_invariant [exMatA, exMatA] [(0,0), (1,0), (0,1)]
    [(0,1,2), (0,1,2)] [0, 1]
    { name := "uber_material", bsdf := "pbr",
      kd := some ⟨[exTex, exTex], (1, 2)⟩,
      ks := some ⟨[exTex, exTex], (1, 2)⟩, normal := none }
    [(0, 0), ((1:ℚ)/2, 0), (0, 1), ((1:ℚ)/2, 0), (1, 0), ((1:ℚ)/2, 1)]
    [(0, 1, 2), (3, 4, 5)]
    (by simp [merge_materials, mergeUber, mergeTVerts, mergeScale, mergeFullRes,
      computeMaxRes, matResList, maxPair, slotRes, normalizeNormals, fillNormal,
      pow2ceil, pow2ceilFuel, mergeSlot, scale_img_nhwc, rewriteFaces, buildTVerts,
      stepTVert, corners, faceCorners, uvRemap, checkAll, checkMaterial, remapFace,
      idxOf, exMatA, exTex, List.zip, List.getD_cons_zero, List.getD_cons_succ,
      -Prod.mk_one_one, -Prod.mk_zero_zero])
  exact ⟨h.1, h.2.2 1 0 (0, 1, 2) 1 (0, 1, 2) 0 (0 : Fin 3) (0 : Fin 3)
    (3, 4, 5) (0, 1, 2) rfl rfl rfl rfl⟩

/-- Claim C2 (confirmed): for every non-empty material sequence of length
m with element-wise maximum slot resolution (H, W) (1x1 for an absent
slot), the merged atlas canvas is `2 ^ ceil(log2 (H, W*m))` element-wise,
hence a power of two no smaller than H (height) and W*m (width). -/
theorem merge_atlas_resolution (ms : List Material) (tc : List (ℚ × ℚ))
    (tfaces : List (Nat × Nat × Nat)) (mfaces : List Nat)
    (uber : UberMaterial) (ntc : List (ℚ × ℚ)) (ntf : List (Nat × Nat × Nat))
    (a : Atlas)
    (hok : merge_materials ms tc tfaces mfaces = .ok (uber, ntc, ntf))
    (ha : uber.kd = some a) :
    a.canvas = (pow2ceil (computeMaxRes ms).1,
        pow2ceil ((computeMaxRes ms).2 * ms.length)) ∧
    (computeMaxRes ms).1 ≤ a.canvas.1 ∧
    (computeMaxRes ms).2 * ms.length ≤ a.canvas.2 ∧
    (∃ i, a.canvas.1 = 2 ^ i) ∧ (∃ j, a.canvas.2 = 2 ^ j) := by
  obtain ⟨-, -, huber, -, -⟩ :=
    (merge_materials_ok_iff ms tc tfaces mfaces uber ntc ntf).1 hok
  subst huber
  have hca : a.canvas = mergeFullRes (normalizeNormals ms) := by
    unfold mergeUber mergeSlot at ha
    simp only [] at ha
    injection ha with ha
    rw [← ha]
  have hfr : mergeFullRes (normalizeNormals ms) =
      (pow2ceil (computeMaxRes ms).1,
        pow2ceil ((computeMaxRes ms).2 * ms.length)) := by
    unfold mergeFullRes
    rw [computeMaxRes_normalize, normalizeNormals_length]
  rw [hca, hfr]
  exact ⟨rfl, le_pow2ceil _, le_pow2ceil _, pow2ceil_is_pow2 _, pow2ceil_is_pow2 _⟩

/-- Witness for C2: materials of kd resolutions 1x1 and 2x3 give
maxRes (2, 3), two side-by-side cells, canvas (2, 8) = (2^1, 2^3). -/
theorem merge_atlas_resolution_witness :
    (⟨[⟨2, 3, [[[1, 1, 1]]]⟩, exTex23], (2, 8)⟩ : Atlas).canvas =
        (pow2ceil (computeMaxRes [exMatA, exMatC]).1,
          pow2ceil ((computeMaxRes [exMatA, exMatC]).2 *
            ([exMatA, exMatC] : List Material).length)) ∧
    (computeMaxRes [exMatA, exMatC]).1 ≤
        ((⟨[⟨2, 3, [[[1, 1, 1]]]⟩, exTex23], (2, 8)⟩ : Atlas)).canvas.1 ∧
    (computeMaxRes [exMatA, exMatC]).2 * ([exMatA, exMatC] : List Material).length ≤
        ((⟨[⟨2, 3, [[[1, 1, 1]]]⟩, exTex23], (2, 8)⟩ : Atlas)).canvas.2 ∧
    (∃ i, ((⟨[⟨2, 3, [[[1, 1, 1]]]⟩, exTex23], (2, 8)⟩ : Atlas)).canvas.1 = 2 ^ i) ∧
    (∃ j, ((⟨[⟨2, 3, [[[1, 1, 1]]]⟩, exTex23], (2, 8)⟩ : Atlas)).canvas.2 = 2 ^ j) :=
  merge_atlas_resolution [exMatA, exMatC] [] [] []
    { name := "uber_material", bsdf := "pbr",
      kd := some ⟨[⟨2, 3, [[[1, 1, 1]]]⟩, exTex23], (2, 8)⟩,
      ks := some ⟨[⟨2, 3, [[[1, 1, 1]]]⟩, ⟨2, 3, [[[1, 1, 1]]]⟩], (2, 8)⟩,
      normal := none }
    [] [] ⟨[⟨2, 3, [[[1, 1, 1]]]⟩, exTex23], (2, 8)⟩
    (by decide) rfl

/-- Counterexample to claim C4 as stated: texture coordinates are not
validated, and an original `u = 1` (the far edge of the unit square, a
perfectly representable input) is rewritten to
`u' = (i + 1) / sCol`, the lower bound of the NEXT cell, violating
`u' < (i + 1) / sCol`.  Concretely, one material, one face whose single
UV entry is `(1, 0)`: the merge succeeds, the rewritten table is
`[(1, 0)]` (since `sCol = 1`), and its `u' = 1` fails the strict upper
bound `(0 + 1) / sCol = 1` of material 0's cell. -/
theorem uv_partition_cex :
    merge_materials [exMatA] [((1:ℚ), 0)] [(0,0,0)] [0] =
      .ok (exUberA, [((1:ℚ), 0)], [(0,0,0)]) ∧
    ¬((1:ℚ) < (((0:Nat) : ℚ) + 1) / (mergeScale [exMatA]).2) := by
  constructor
  · simp [merge_materials, mergeUber, mergeTVerts, mergeScale, mergeFullRes,
      computeMaxRes, matResList, maxPair, slotRes, normalizeNormals, fillNormal,
      pow2ceil, pow2ceilFuel, mergeSlot, scale_img_nhwc, rewriteFaces, buildTVerts,
      stepTVert, corners, faceCorners, uvRemap, checkAll, checkMaterial, remapFace,
      idxOf, exMatA, exTex, exUberA, List.zip]
  · simp [mergeScale, mergeFullRes, computeMaxRes, matResList, maxPair, slotRes,
      normalizeNormals, fillNormal, pow2ceil, pow2ceilFuel, exMatA, exTex]

/-- Claim C4 (corrected): provided a corner's original `u` lies in
`[0, 1)` (and the scanned maximum width is positive, so the column scale
is meaningful), the post-merge `u'` of that corner lies in
`[i / sCol, (i + 1) / sCol)` where `i` is the face's material index — no
such face addresses another material's atlas cell.  The claim's original
unconditional form fails for `u` outside the half-open unit interval
(see the counterexample). -/
theorem uv_partition_amended (ms : List Material) (tc : List (ℚ × ℚ))
    (tfaces : List (Nat × Nat × Nat)) (mfaces : List Nat)
    (uber : UberMaterial) (ntc : List (ℚ × ℚ)) (ntf : List (Nat × Nat × Nat))
    (hok : merge_materials ms tc tfaces mfaces = .ok (uber, ntc, ntf))
    (fi : Nat) (f : Nat × Nat × Nat) (mi : Nat) (vi : Fin 3)
    (nf : Nat × Nat × Nat) (u v : ℚ) (p : ℚ × ℚ)
    (hfm : (tfaces.zip mfaces)[fi]? = some (f, mi))
    (hnf : ntf[fi]? = some nf)
    (htc : tc[faceIdx f vi]? = some (u, v))
    (hp : ntc[faceIdx nf vi]? = some p)
    (hu0 : 0 ≤ u) (hu1 : u < 1)
    (hw : 0 < (computeMaxRes ms).2) :
    (mi : ℚ) / (mergeScale ms).2 ≤ p.1 ∧
    p.1 < ((mi : ℚ) + 1) / (mergeScale ms).2 := by
  obtain ⟨-, -, -, hntc, hntf⟩ :=
    (merge_materials_ok_iff ms tc tfaces mfaces uber ntc ntf).1 hok
  subst hntc hntf
  have h := mergeTVerts_corner ms tc tfaces mfaces fi f mi vi nf hfm hnf
  rw [mergeScale_normalize] at h
  rw [hp] at h
  injection h with h
  have hget : tc.getD (faceIdx f vi) (0, 0) = (u, v) := by
    rw [List.getD_eq_getElem?_getD, htc, Option.getD_some]
  have hp1 : p.1 = ((mi : ℚ) + u) / (mergeScale ms).2 := by
    rw [h]
    simp only [uvRemap, hget]
  have hcol : 0 < (mergeScale ms).2 := by
    unfold mergeScale
    have h1 : (0:ℚ) < ((mergeFullRes ms).2 : ℚ) := by
      exact_mod_cast pow2ceil_pos _
    have h2 : (0:ℚ) < ((computeMaxRes ms).2 : ℚ) := by exact_mod_cast hw
    exact div_pos h1 h2
  rw [hp1]
  constructor
  · rw [div_le_div_iff_of_pos_right hcol]
    linarith
  · rw [div_lt_div_iff_of_pos_right hcol]
    linarith

/-- Witness for the amended C4: original `u = 0` on a single-material
merge lands in `[0 / sCol, 1 / sCol)`. -/
theorem uv_partition_amended_witness :
    (((0:Nat) : ℚ)) / (mergeScale [exMatA]).2 ≤ (((0:ℚ), (0:ℚ)) : ℚ × ℚ).1 ∧
    (((0:ℚ), (0:ℚ)) : ℚ × ℚ).1 < ((((0:Nat) : ℚ)) + 1) / (mergeScale [exMatA]).2 :=
  uv_partition_amended [exMatA] [((0:ℚ), 0)] [(0,0,0)] [0]
    exUberA [((0:ℚ), 0)] [(0,0,0)]
    (by simp [merge_materials, mergeUber, mergeTVerts, mergeScale, mergeFullRes,
      computeMaxRes, matResList, maxPair, slotRes, normalizeNormals, fillNormal,
      pow2ceil, pow2ceilFuel, mergeSlot, scale_img_nhwc, rewriteFaces, buildTVerts,
      stepTVert, corners, faceCorners, uvRemap, checkAll, checkMaterial, remapFace,
      idxOf, exMatA, exTex, exUberA, List.zip])
    0 (0, 0, 0) 0 (0 : Fin 3) (0, 0, 0) 0 0 ((0:ℚ), (0:ℚ))
    rfl rfl rfl rfl (le_refl 0) zero_lt_one (by decide)

/-- Claim C5 (confirmed): for every non-empty material set with mixed
normal presence and a uniform shader model, the merge first gives each
lacking material the 1x1 flat-normal buffer `(0, 0, 1)`; the
normal-presence precondition then never fails, no error is raised, and
all materials — including the synthesized ones — contribute one cell each
to a single merged normal atlas. -/
theorem normal_presence_normalization (ms : List Material) (tc : List (ℚ × ℚ))
    (tfaces : List (Nat × Nat × Nat)) (mfaces : List Nat)
    (hsome : ms.any (fun m => m.normal.isSome) = true)
    (hnot : ms.all (fun m => m.normal.isSome) = false)
    (hb : ∀ m ∈ ms, m.bsdf = ms.headI.bsdf) :
    normalizeNormals ms = ms.map fillNormal ∧
    (∀ m ∈ ms, m.normal = none → (fillNormal m).normal = some flatNormal) ∧
    (flatNormal.height = 1 ∧ flatNormal.width = 1 ∧
      flatNormal.mips = [[[0, 0, 1]]]) ∧
    checkAll (normalizeNormals ms).headI (normalizeNormals ms) = .ok () ∧
    (∃ ntc ntf a,
      merge_materials ms tc tfaces mfaces = .ok (mergeUber ms, ntc, ntf) ∧
      (mergeUber ms).normal = some a ∧
      a.cells = (normalizeNormals ms).map
        (fun m => scale_img_nhwc (m.normal.getD default) (computeMaxRes ms)) ∧
      a.cells.length = ms.length) := by
  have hne : ms ≠ [] := by
    intro h
    subst h
    simp at hsome
  have hcond : ((ms.any fun m => m.normal.isSome) &&
      !(ms.all fun m => m.normal.isSome)) = true := by
    rw [hsome, hnot]
    rfl
  have hnorm : normalizeNormals ms = ms.map fillNormal := by
    unfold normalizeNormals
    rw [if_pos hcond]
  have hchk : checkAll (normalizeNormals ms).headI (normalizeNormals ms) =
      .ok () := (checkAll_norm_ok_iff ms).2 hb
  refine ⟨hnorm, ?_, ⟨rfl, rfl, rfl⟩, hchk, ?_⟩
  · intro m _ hnone
    unfold fillNormal
    rw [hnone]
    simp
  · -- the merge succeeds and merges a normal atlas with one cell per material
    have hmerge : merge_materials ms tc tfaces mfaces =
        .ok (mergeUber ms, (mergeTVerts ms tc tfaces mfaces).1,
          (mergeTVerts ms tc tfaces mfaces).2) :=
      (merge_materials_ok_iff ms tc tfaces mfaces (mergeUber ms)
        (mergeTVerts ms tc tfaces mfaces).1
        (mergeTVerts ms tc tfaces mfaces).2).2 ⟨hne, hchk, rfl, rfl, rfl⟩
    have hheadI : (normalizeNormals ms).headI.normal.isSome = true := by
      rw [hnorm]
      cases ms with
      | nil => exact absurd rfl hne
      | cons m0 t =>
          simp only [List.map_cons, List.headI]
          exact fillNormal_isSome m0
    obtain ⟨t0, ht0⟩ := Option.isSome_iff_exists.1 hheadI
    refine ⟨(mergeTVerts ms tc tfaces mfaces).1,
      (mergeTVerts ms tc tfaces mfaces).2,
      { cells := (normalizeNormals ms).map
          (fun m => scale_img_nhwc (m.normal.getD default)
            (computeMaxRes (normalizeNormals ms))),
        canvas := mergeFullRes (normalizeNormals ms) }, hmerge, ?_, ?_, ?_⟩
    · unfold mergeUber mergeSlot
      simp only [ht0]
    · simp only [computeMaxRes_normalize]
    · simp only [List.length_map, normalizeNormals_length]

/-- Witness for C5: materials `[A(no normal), B(has normal)]` merge into
an uber material whose normal atlas has the synthesized flat cell first. -/
theorem normal_presence_normalization_witness :
    normalizeNormals [exMatA, exMatB] = [exMatA, exMatB].map fillNormal ∧
    (∀ m ∈ [exMatA, exMatB], m.normal = none →
      (fillNormal m).normal = some flatNormal) ∧
    (flatNormal.height = 1 ∧ flatNormal.width = 1 ∧
      flatNormal.mips = [[[0, 0, 1]]]) ∧
    checkAll (normalizeNormals [exMatA, exMatB]).headI
      (normalizeNormals [exMatA, exMatB]) = .ok () ∧
    (∃ ntc ntf a,
      merge_materials [exMatA, exMatB] [] [] [] =
        .ok (mergeUber [exMatA, exMatB], ntc, ntf) ∧
      (mergeUber [exMatA, exMatB]).normal = some a ∧
      a.cells = (normalizeNormals [exMatA, exMatB]).map
        (fun m => scale_img_nhwc (m.normal.getD default)
          (computeMaxRes [exMatA, exMatB])) ∧
      a.cells.length = ([exMatA, exMatB] : List Material).length) :=
  normal_presence_normalization [exMatA, exMatB] [] [] []
    (by decide) (by decide) (by decide)

/-- Claim C6 (confirmed): `merge_materials` fails hard — returning an
error and no partial result — exactly when its preconditions are
violated: the empty-input error is raised iff the material sequence is
empty, some error is raised iff the sequence is empty or some material's
shader model differs from the first one's, and otherwise a merged result
is returned. -/
theorem merge_error_characterization (ms : List Material) (tc : List (ℚ × ℚ))
    (tfaces : List (Nat × Nat × Nat)) (mfaces : List Nat) :
    (merge_materials ms tc tfaces mfaces = .error .emptyMaterials ↔ ms = []) ∧
    ((∃ e, merge_materials ms tc tfaces mfaces = .error e) ↔
      (ms = [] ∨ ∃ m ∈ ms, m.bsdf ≠ ms.headI.bsdf)) ∧
    ((∃ r, merge_materials ms tc tfaces mfaces = .ok r) ↔
      (ms ≠ [] ∧ ∀ m ∈ ms, m.bsdf = ms.headI.bsdf)) := by
  by_cases hne : ms = []
  · subst hne
    refine ⟨by simp [merge_materials], by simp [merge_materials], ?_⟩
    simp [merge_materials]
  · have hE : ms.isEmpty = false := by simpa [List.isEmpty_iff] using hne
    have hok_iff : (∃ r, merge_materials ms tc tfaces mfaces = .ok r) ↔
        (∀ m ∈ ms, m.bsdf = ms.headI.bsdf) := by
      constructor
      · rintro ⟨⟨uber, ntc, ntf⟩, hr⟩
        obtain ⟨-, hchk, -, -, -⟩ :=
          (merge_materials_ok_iff ms tc tfaces mfaces uber ntc ntf).1 hr
        exact (checkAll_norm_ok_iff ms).1 hchk
      · intro h
        exact ⟨(mergeUber ms, (mergeTVerts ms tc tfaces mfaces).1,
          (mergeTVerts ms tc tfaces mfaces).2),
          (merge_materials_ok_iff ms tc tfaces mfaces _ _ _).2
            ⟨hne, (checkAll_norm_ok_iff ms).2 h, rfl, rfl, rfl⟩⟩
    have hdichot : (∃ e, merge_materials ms tc tfaces mfaces = .error e) ↔
        ¬(∃ r, merge_materials ms tc tfaces mfaces = .ok r) := by
      cases hv : merge_materials ms tc tfaces mfaces with
      | error e => simp [hv]
      | ok r => simp [hv]
    refine ⟨?_, ?_, ?_⟩
    · constructor
      · intro h
        exfalso
        unfold merge_materials at h
        rw [if_neg (by simp [hE])] at h
        simp only [] at h
        cases hc : checkAll (normalizeNormals ms).headI (normalizeNormals ms) with
        | error e =>
            rw [hc] at h
            injection h with h
            rcases checkAll_error_elim _ _ e hc with rfl | rfl <;> exact
              MaterialMismatchError.noConfusion h
        | ok u => cases u; rw [hc] at h; exact Except.noConfusion h
      · intro h
        exact absurd h hne
    · rw [hdichot, hok_iff]
      constructor
      · intro h
        right
        rcases not_forall.1 h with ⟨m, hm⟩
        rcases Classical.not_imp.1 hm with ⟨hmem, hval⟩
        exact ⟨m, hmem, hval⟩
      · rintro (rfl | ⟨m, hm, hval⟩)
        · exact absurd rfl hne
        · intro hall
          exact hval (hall m hm)
    · rw [hok_iff]
      constructor
      · exact fun h => ⟨hne, h⟩
      · exact fun h => h.2

/-- Witness for C6: the empty material list produces the empty-input
error. -/
theorem merge_error_characterization_witness :
    merge_materials ([] : List Material) [] [] [] = .error .emptyMaterials :=
  (merge_error_characterization ([] : List Material) [] [] []).1.mpr rfl

/-- Counterexample to claim C7 as stated: merging `[A(no normal),`
`B(has normal)]` mutates the input records — after the call the first
material has gained a `normal` slot, so the inputs are not unchanged. -/
theorem merge_input_mutation_cex :
    materialsAfterMerge [exMatA, exMatB] ≠ [exMatA, exMatB] := by decide

/-- Claim C7 (corrected): `merge_materials` leaves every input record
unchanged iff normal presence is not mixed; when it is mixed, exactly the
records lacking a `normal` slot are mutated in place, and only in that
slot, which receives the synthesized flat 1x1 buffer.  (The load-time
`ks` occlusion overwrite remains the pipeline's other in-place
mutation.) -/
theorem merge_input_mutation_amended (ms : List Material) :
    (materialsAfterMerge ms = ms ↔
      ¬((ms.any fun m => m.normal.isSome) = true ∧
        (ms.all fun m => m.normal.isSome) = false)) ∧
    (((ms.any fun m => m.normal.isSome) = true ∧
        (ms.all fun m => m.normal.isSome) = false) →
      materialsAfterMerge ms = ms.map fillNormal) ∧
    (∀ m ∈ ms, (fillNormal m).name = m.name ∧ (fillNormal m).bsdf = m.bsdf ∧
      (fillNormal m).kd = m.kd ∧ (fillNormal m).ks = m.ks) ∧
    (∀ m ∈ ms, m.normal.isSome = true → fillNormal m = m) ∧
    (∀ m ∈ ms, m.normal = none → (fillNormal m).normal = some flatNormal) := by
  refine ⟨?_, ?_, ?_, ?_, ?_⟩
  · constructor
    · intro h hcond
      obtain ⟨hsome, hnot⟩ := hcond
      unfold materialsAfterMerge normalizeNormals at h
      rw [if_pos (by rw [hsome, hnot]; rfl)] at h
      obtain ⟨m, hm, hnone⟩ : ∃ m ∈ ms, m.normal = none := by
        rcases List.all_eq_false.1 hnot with ⟨m, hm, hmf⟩
        exact ⟨m, hm, Option.not_isSome_iff_eq_none.1 (by simpa using hmf)⟩
      exact map_fillNormal_ne ms m hm hnone h
    · intro h
      unfold materialsAfterMerge normalizeNormals
      rw [if_neg ?_]
      intro hcond
      rcases Bool.and_eq_true_iff.1 hcond with ⟨h1, h2⟩
      exact h ⟨h1, by simpa using h2⟩
  · intro hcond
    unfold materialsAfterMerge normalizeNormals
    rw [if_pos (by rw [hcond.1, hcond.2]; rfl)]
  · intro m _
    exact ⟨fillNormal_name m, fillNormal_bsdf m, fillNormal_kd m, fillNormal_ks m⟩
  · intro m _ h
    exact fillNormal_of_isSome m h
  · intro m _ hnone
    unfold fillNormal
    rw [hnone]
    simp

/-- Witness for the amended C7: a uniformly normal-mapped list is left
untouched by the merge. -/
theorem merge_input_mutation_amended_witness :
    materialsAfterMerge [exMatB] = [exMatB] :=
  (merge_input_mutation_amended [exMatB]).1.mpr (by decide)

/-! ### Parser lemmas -/

theorem begWith_iff (n h : List Char) :
    begWith n h = true ↔ ∃ t, h = n ++ t := by
  induction n generalizing h with
  | nil =>
      simp [begWith]
  | cons a as ih =>
      cases h with
      | nil =>
          simp [begWith]
      | cons b bs =>
          rw [begWith]
          simp only [Bool.and_eq_true, decide_eq_true_eq, ih]
          constructor
          · rintro ⟨rfl, t, rfl⟩
            exact ⟨t, rfl⟩
          · rintro ⟨t, ht⟩
            injection ht with h1 h2
            exact ⟨h1.symm, t, h2⟩

/-- Python's substring operator, characterized: `n in h` holds exactly
when `h` decomposes around a contiguous copy of `n`. -/
theorem isSubTok_iff (n h : List Char) :
    isSubTok n h = true ↔ ∃ p t, h = p ++ n ++ t := by
  induction h with
  | nil =>
      rw [isSubTok]
      constructor
      · intro he
        rw [List.isEmpty_iff.1 he]
        exact ⟨[], [], rfl⟩
      · rintro ⟨p, t, hpt⟩
        have := hpt.symm
        rw [List.append_assoc] at this
        rcases List.append_eq_nil.1 this with ⟨rfl, h2⟩
        rcases List.append_eq_nil.1 h2 with ⟨rfl, rfl⟩
        rfl
  | cons b bs ih =>
      rw [isSubTok]
      simp only [Bool.or_eq_true, begWith_iff, ih]
      constructor
      · rintro (⟨t, ht⟩ | ⟨p, t, ht⟩)
        · exact ⟨[], t, by simpa using ht⟩
        · exact ⟨b :: p, t, by simp [ht]⟩
      · rintro ⟨p, t, ht⟩
        cases p with
        | nil => exact .inl ⟨t, by simpa using ht⟩
        | cons x xs =>
            injection ht with h1 h2
            exact .inr ⟨xs, t, h2⟩

/-- Dict assignment only adds or overwrites the given key. -/
theorem setEntry_mem (rec : RawMaterial) (k : String) (v : MtlValue)
    (e : String × MtlValue) (he : e ∈ setEntry rec k v) :
    e ∈ rec ∨ e.1 = k := by
  unfold setEntry at he
  split at he
  · obtain ⟨e0, he0, heq⟩ := List.mem_map.1 he
    by_cases h : e0.1 = k
    · right
      rw [if_pos h] at heq
      rw [← heq]
    · left
      rw [if_neg h] at heq
      rw [← heq]
      exact he0
  · rcases List.mem_append.1 he with h | h
    · exact .inl h
    · right
      rw [List.mem_singleton.1 h]

/-! ### Claims about the parser -/

/-- Counterexample to claim C8 as stated: the loader dispatches
string-valued keys by SUBSTRING containment (Python `k in prefix`), not
by exact membership.  The key `map_bump` is outside the claimed exact
set, yet — because it contains `bump` — its value is stored as the first
token string instead of being parsed as a numeric vector. -/
theorem key_dispatch_cex :
    storeVal? "map_bump" ["0.5"] = .ok (.str "0.5") ∧
    "map_bump" ∉ stringValuedKeys := by
  constructor
  · decide
  · decide

/-- Claim C8 (corrected): a key-value line's value is stored as the first
token (a string) iff the lowercased key CONTAINS one of `bsdf`, `map_kd`,
`map_ks`, `bump`, `map_ns`, `ns`, `ka`, `refl` as a substring — not
iff it equals one of them; all other keys keep their token vector for
numeric parsing. -/
theorem key_dispatch_amended (key a : String) (rest : List String) :
    (storeVal? key (a :: rest) = .ok (.str a) ↔
      ∃ k ∈ stringValuedKeys, ∃ p t, key.toList = p ++ k.toList ++ t) ∧
    (storeVal? key (a :: rest) = .ok (.vec (a :: rest)) ↔
      ¬∃ k ∈ stringValuedKeys, ∃ p t, key.toList = p ++ k.toList ++ t) := by
  have hiff : isStringKey key = true ↔
      ∃ k ∈ stringValuedKeys, ∃ p t, key.toList = p ++ k.toList ++ t := by
    unfold isStringKey
    rw [List.any_eq_true]
    constructor
    · rintro ⟨k, hk, hsub⟩
      exact ⟨k, hk, (isSubTok_iff _ _).1 hsub⟩
    · rintro ⟨k, hk, hdec⟩
      exact ⟨k, hk, (isSubTok_iff _ _).2 hdec⟩
  unfold storeVal?
  by_cases hk : isStringKey key = true
  · rw [if_pos hk]
    exact ⟨iff_of_true rfl (hiff.1 hk),
      iff_of_false (by simp) (not_not_intro (hiff.1 hk))⟩
  · rw [if_neg hk]
    have hf : ¬∃ k ∈ stringValuedKeys, ∃ p t, key.toList = p ++ k.toList ++ t :=
      fun hex => hk (hiff.2 hex)
    exact ⟨iff_of_false (by simp) hf, iff_of_true rfl hf⟩

/-- Witness for the amended C8: the key `bump` itself is string-valued,
witnessed by the trivial decomposition. -/
theorem key_dispatch_amended_witness :
    storeVal? "bump" ["a"] = .ok (.str "a") :=
  (key_dispatch_amended "bump" "a" []).1.mpr
    ⟨"bump", by decide, [], [], by decide⟩

/-- The cleared buffer, pixel by pixel: position `(i, j)` of any mip holds
the cleared version of the original pixel. -/
theorem clearChannel0_pixel (t : Texture2D) (i j : Nat) :
    (((clearChannel0 t).mips.getD i []).getD j []) =
      clearPixel ((t.mips.getD i []).getD j []) := by
  unfold clearChannel0
  simp only []
  rw [List.getD_eq_getElem?_getD, List.getD_eq_getElem?_getD, List.getElem?_map]
  cases hmi : t.mips[i]? with
  | none => simp [clearPixel, hmi]
  | some mip =>
      simp only [Option.map_some', Option.getD_some]
      rw [List.getD_eq_getElem?_getD, List.getD_eq_getElem?_getD, List.getElem?_map]
      cases hpx : mip[j]? with
      | none => simp [clearPixel, hmi, hpx]
      | some px => simp [hmi, hpx]

/-- Claim C9 (confirmed): with the clear-specular-occlusion flag enabled
(the default), every returned material's `ks` has a zero first channel at
every resolution level — whatever the source pixel held — while the
remaining channels keep their loaded values (and the mip count is
unchanged). -/
theorem clear_ks_occlusion (m : Material) (i j : Nat) :
    (((applyClearKs true m).ks.mips.getD i []).getD j []).head? =
      ((m.ks.mips.getD i []).getD j []).head?.map (fun _ => (0:ℚ)) ∧
    (((applyClearKs true m).ks.mips.getD i []).getD j []).tail =
      ((m.ks.mips.getD i []).getD j []).tail ∧
    (applyClearKs true m).ks.mips.length = m.ks.mips.length := by
  have hks : (applyClearKs true m).ks = clearChannel0 m.ks := by
    unfold applyClearKs
    rw [if_pos rfl]
  rw [hks, clearChannel0_pixel]
  refine ⟨?_, ?_, ?_⟩
  · cases (m.ks.mips.getD i []).getD j [] <;> simp [clearPixel]
  · cases (m.ks.mips.getD i []).getD j [] <;> simp [clearPixel]
  · unfold clearChannel0
    simp

/-! ### Structural lemmas for the parse loop -/

/-- Unfolding equation of the parse loop on the empty line list. -/
theorem parseMtlGo_nil (acc : List RawMaterial) : parseMtlGo acc [] = .ok acc :=
  rfl

/-- Unfolding equation of the parse loop on a cons. -/
theorem parseMtlGo_cons (acc : List RawMaterial) (ln : List String)
    (rest : List (List String)) :
    parseMtlGo acc (ln :: rest) =
      (if isNewMtlKey (lineKey ln) then
        match ln.tail with
        | [] => .error .missingName
        | nm :: _ => parseMtlGo (acc ++ [[("name", MtlValue.str nm)]]) rest
      else
        match acc with
        | [] => parseMtlGo [] rest
        | _ :: _ =>
            match storeVal? (lineKey ln) ln.tail with
            | .error e => .error e
            | .ok v => parseMtlGo
                (acc.dropLast ++ [setEntry (acc.getLastD []) (lineKey ln) v])
                rest) :=
  rfl

/-- Key/value lines before the first `newmtl` are skipped outright: they
create no record, store no key and raise no error. -/
theorem parseMtlGo_skip (pre rest : List (List String))
    (hpre : ∀ l ∈ pre, isNewMtlKey (lineKey l) = false) :
    parseMtlGo [] (pre ++ rest) = parseMtlGo [] rest := by
  induction pre with
  | nil => rfl
  | cons l pre ih =>
      rw [List.cons_append, parseMtlGo_cons]
      rw [if_neg (by rw [hpre l (by simp)]; simp)]
      exact ih (fun l' hl' => hpre l' (by simp [hl']))

/-- Successful parses produce one record per `newmtl` line on top of the
records already accumulated. -/
theorem parseMtlGo_length (ls : List (List String)) (acc mats : List RawMaterial)
    (h : parseMtlGo acc ls = .ok mats) :
    mats.length = acc.length +
      ls.countP (fun l => isNewMtlKey (lineKey l)) := by
  induction ls generalizing acc with
  | nil =>
      rw [parseMtlGo_nil] at h
      injection h with h
      subst h
      simp
  | cons l rest ih =>
      rw [parseMtlGo_cons] at h
      by_cases hk : isNewMtlKey (lineKey l) = true
      · rw [if_pos hk] at h
        cases hargs : l.tail with
        | nil =>
            rw [hargs] at h
            exact absurd h (by simp)
        | cons nm tl =>
            rw [hargs] at h
            have hrec := ih (acc ++ [[("name", MtlValue.str nm)]]) h
            rw [hrec]
            simp [List.countP_cons, hk]
            omega
      · rw [if_neg hk] at h
        cases acc with
        | nil =>
            have hrec := ih [] h
            rw [hrec]
            simp [List.countP_cons, hk]
        | cons a t =>
            cases hsv : storeVal? (lineKey l) l.tail with
            | error e =>
                rw [hsv] at h
                exact absurd h (by simp)
            | ok v =>
                rw [hsv] at h
                have hrec := ih ((a :: t).dropLast ++
                  [setEntry ((a :: t).getLastD []) (lineKey l) v]) h
                rw [hrec]
                simp [List.countP_cons, hk]
/-- Records other than the last accumulated one are frozen: later lines
never modify them (key/value lines only update the most recent record,
`newmtl` only appends). -/
theorem parseMtlGo_frozen (ls : List (List String)) (acc mats : List RawMaterial)
    (h : parseMtlGo acc ls = .ok mats) (i : Nat) (hi : i + 1 < acc.length) :
    mats[i]? = acc[i]? := by
  induction ls generalizing acc with
  | nil =>
      rw [parseMtlGo_nil] at h
      injection h with h
      subst h
      rfl
  | cons l rest ih =>
      rw [parseMtlGo_cons] at h
      by_cases hk : isNewMtlKey (lineKey l) = true
      · rw [if_pos hk] at h
        cases hargs : l.tail with
        | nil =>
            rw [hargs] at h
            exact absurd h (by simp)
        | cons nm tl =>
            rw [hargs] at h
            have hlen : (acc ++ [[("name", MtlValue.str nm)]]).length =
                acc.length + 1 := by simp
            have hrec := ih (acc ++ [[("name", MtlValue.str nm)]]) h
              (by rw [hlen]; omega)
            rw [hrec, List.getElem?_append_left (by omega)]
      · rw [if_neg hk] at h
        cases acc with
        | nil => simp at hi
        | cons a t =>
            cases hsv : storeVal? (lineKey l) l.tail with
            | error e =>
                rw [hsv] at h
                exact absurd h (by simp)
            | ok v =>
                rw [hsv] at h
                have hdl : ((a :: t).dropLast).length = t.length := by simp
                have hlen : ((a :: t).dropLast ++
                    [setEntry ((a :: t).getLastD []) (lineKey l) v]).length =
                    t.length + 1 := by simp
                have hrec := ih ((a :: t).dropLast ++
                  [setEntry ((a :: t).getLastD []) (lineKey l) v]) h
                  (by rw [hlen]; simp at hi; omega)
                rw [hrec, List.getElem?_append_left (by rw [hdl]; simp at hi; omega),
                  List.dropLast_eq_take, List.getElem?_take_of_lt]
                simp at hi
                simp
                omega

/-- Processing a `newmtl`-free segment starting from one accumulated
record: the head record of the final result exists and every one of its
entries comes from the initial record or from one of the segment's
lines; lines of the following segments (the rest, which is empty or
starts with a `newmtl`) never touch it. -/
theorem parseMtlGo_head_prov (seg rest : List (List String))
    (rec : RawMaterial) (mats : List RawMaterial)
    (hseg : ∀ l ∈ seg, isNewMtlKey (lineKey l) = false)
    (hrest : rest = [] ∨ ∃ l rest', rest = l :: rest' ∧
      isNewMtlKey (lineKey l) = true)
    (h : parseMtlGo [rec] (seg ++ rest) = .ok mats) :
    ∃ rec', mats[0]? = some rec' ∧
      ∀ e ∈ rec', e ∈ rec ∨ ∃ l ∈ seg, lineKey l = e.1 := by
  induction seg generalizing rec with
  | nil =>
      simp only [List.nil_append] at h
      rcases hrest with rfl | ⟨l, rest', rfl, hknew⟩
      · rw [parseMtlGo_nil] at h
        injection h with h
        subst h
        exact ⟨rec, rfl, fun e he => .inl he⟩
      · rw [parseMtlGo_cons, if_pos hknew] at h
        cases hargs : l.tail with
        | nil =>
            rw [hargs] at h
            exact absurd h (by simp)
        | cons nm tl =>
            rw [hargs] at h
            have hfr := parseMtlGo_frozen rest'
              ([rec] ++ [[("name", MtlValue.str nm)]]) mats h 0 (by simp)
            exact ⟨rec, by rw [hfr]; rfl, fun e he => .inl he⟩
  | cons l seg' ih =>
      rw [List.cons_append, parseMtlGo_cons] at h
      rw [if_neg (by rw [hseg l (by simp)]; simp)] at h
      cases hsv : storeVal? (lineKey l) l.tail with
      | error e =>
          rw [hsv] at h
          exact absurd h (by simp)
      | ok v =>
          rw [hsv] at h
          obtain ⟨rec', hm, hprov⟩ := ih (setEntry rec (lineKey l) v)
            (fun l' hl' => hseg l' (by simp [hl'])) h
          refine ⟨rec', hm, ?_⟩
          intro e he
          rcases hprov e he with hin | ⟨l', hl', he'⟩
          · rcases setEntry_mem rec (lineKey l) v e hin with h1 | h1
            · exact .inl h1
            · exact .inr ⟨l, by simp, h1.symm⟩
          · exact .inr ⟨l', by simp [hl'], he'⟩

/-- The parse loop is compositional: processing a concatenation is
processing the first part, then feeding its accumulator to the second,
with errors propagating. -/
theorem parseMtlGo_append (xs ys : List (List String))
    (acc : List RawMaterial) :
    parseMtlGo acc (xs ++ ys) =
      (match parseMtlGo acc xs with
       | .error e => .error e
       | .ok acc' => parseMtlGo acc' ys) := by
  induction xs generalizing acc with
  | nil =>
      rw [List.nil_append, parseMtlGo_nil]
  | cons l rest ih =>
      rw [List.cons_append, parseMtlGo_cons, parseMtlGo_cons]
      by_cases hknew : isNewMtlKey (lineKey l) = true
      · rw [if_pos hknew, if_pos hknew]
        cases l.tail with
        | nil => rfl
        | cons nm tl => exact ih _
      · rw [if_neg hknew, if_neg hknew]
        cases acc with
        | nil => exact ih []
        | cons a t =>
            cases storeVal? (lineKey l) l.tail with
            | error e => rfl
            | ok v => exact ih _

/-- A run of satisfying lines followed by an empty or failing-head rest is
exactly what `takeWhile` keeps. -/
theorem takeWhile_all_append (p : List String → Bool)
    (seg rest : List (List String)) (hseg : ∀ l ∈ seg, p l = true)
    (hrest : rest = [] ∨ ∃ l rest', rest = l :: rest' ∧ p l = false) :
    (seg ++ rest).takeWhile p = seg := by
  induction seg with
  | nil =>
      rcases hrest with rfl | ⟨l, rest', rfl, hl⟩
      · rfl
      · simp [List.takeWhile_cons, hl]
  | cons a t ih =>
      rw [List.cons_append]
      simp only [List.takeWhile_cons, hseg a (by simp), if_true]
      rw [ih (fun l hl => hseg l (by simp [hl]))]

/-- General record provenance: if position `k` of the accumulator holds
`rec`, then after processing the remaining lines the record at `k` is
returned unchanged when it is not the last one, and when it is the last
one its entries each come from `rec` or from the keys of the lines
before the next `newmtl` directive. -/
theorem parseMtlGo_record_prov (ls : List (List String))
    (acc mats : List RawMaterial) (h : parseMtlGo acc ls = .ok mats)
    (k : Nat) (rec : RawMaterial) (hk : acc[k]? = some rec) :
    (k + 1 < acc.length → mats[k]? = some rec) ∧
    (k + 1 = acc.length → ∃ rec', mats[k]? = some rec' ∧
      ∀ e ∈ rec', e ∈ rec ∨
        ∃ l ∈ ls.takeWhile (fun l' => !(isNewMtlKey (lineKey l'))),
          lineKey l = e.1) := by
  induction ls generalizing acc rec with
  | nil =>
      rw [parseMtlGo_nil] at h
      injection h with h
      subst h
      exact ⟨fun _ => hk, fun _ => ⟨rec, hk, fun e he => .inl he⟩⟩
  | cons l rest ih =>
      have hklen : k < acc.length := by
        by_contra hc
        rw [List.getElem?_eq_none (by omega)] at hk
        exact Option.noConfusion hk
      rw [parseMtlGo_cons] at h
      by_cases hknew : isNewMtlKey (lineKey l) = true
      · rw [if_pos hknew] at h
        cases hargs : l.tail with
        | nil =>
            rw [hargs] at h
            exact absurd h (by simp)
        | cons nm tl =>
            rw [hargs] at h
            have hk' : (acc ++ [[("name", MtlValue.str nm)]])[k]? = some rec := by
              rw [List.getElem?_append_left hklen]
              exact hk
            have hih := (ih (acc ++ [[("name", MtlValue.str nm)]]) h rec hk').1
              (by simp only [List.length_append, List.length_cons,
                    List.length_nil]
                  omega)
            exact ⟨fun _ => hih, fun _ => ⟨rec, hih, fun e he => .inl he⟩⟩
      · rw [if_neg hknew] at h
        cases acc with
        | nil => simp at hk
        | cons a t =>
            have hlc : (a :: t).length = t.length + 1 := rfl
            cases hsv : storeVal? (lineKey l) l.tail with
            | error e =>
                rw [hsv] at h
                exact absurd h (by simp)
            | ok v =>
                rw [hsv] at h
                have htw : (l :: rest).takeWhile
                    (fun l' => !(isNewMtlKey (lineKey l'))) =
                    l :: rest.takeWhile
                      (fun l' => !(isNewMtlKey (lineKey l'))) := by
                  simp [List.takeWhile_cons, hknew]
                have hdl : ((a :: t).dropLast).length = t.length := by simp
                have hlen' : ((a :: t).dropLast ++
                    [setEntry ((a :: t).getLastD []) (lineKey l) v]).length =
                    t.length + 1 := by simp
                constructor
                · intro hlt
                  have hlt' : k + 1 < t.length + 1 := by rw [← hlc]; exact hlt
                  have hk' : ((a :: t).dropLast ++
                      [setEntry ((a :: t).getLastD []) (lineKey l) v])[k]? =
                      some rec := by
                    rw [List.getElem?_append_left (by rw [hdl]; omega),
                      List.dropLast_eq_take,
                      List.getElem?_take_of_lt (by rw [hlc]; omega)]
                    exact hk
                  exact (ih _ h rec hk').1 (by rw [hlen']; omega)
                · intro heq
                  have hkt : k = t.length := by
                    rw [hlc] at heq
                    omega
                  have hlast : (a :: t).getLastD [] = rec := by
                    have h1 : (a :: t).getLast? = (a :: t)[t.length]? := by
                      rw [List.getLast?_eq_getElem?]
                      simp
                    rw [List.getLastD_eq_getLast?, h1, ← hkt, hk]
                    rfl
                  have hk' : ((a :: t).dropLast ++
                      [setEntry ((a :: t).getLastD []) (lineKey l) v])[k]? =
                      some (setEntry rec (lineKey l) v) := by
                    rw [hkt, ← hdl, List.getElem?_concat_length, hlast]
                  obtain ⟨rec', hm, hprov⟩ := (ih _ h
                    (setEntry rec (lineKey l) v) hk').2 (by rw [hlen', hkt])
                  refine ⟨rec', hm, ?_⟩
                  intro e he
                  rcases hprov e he with hin | ⟨l', hl', he'⟩
                  · rcases setEntry_mem rec (lineKey l) v e hin with h1 | h1
                    · exact .inl h1
                    · exact .inr ⟨l, by rw [htw]; simp, h1.symm⟩
                  · exact .inr ⟨l', by rw [htw]; simp [hl'], he'⟩

/-- Claim C10 (confirmed): key-value lines before the first `newmtl`
directive are silently discarded — no record, no stored key, no error
(parsing with or without them is the same computation); the returned
sequence has exactly one record per `newmtl` directive (a directive
being any line whose lowercased key contains `newmtl`, Python substring
semantics); and EVERY record — the one opened by the `newmtl` directive
preceded by `n` earlier directives sits at position `n` — holds only its
`name` entry plus keys of the lines between its `newmtl` and the next
directive (or the end of file). -/
theorem load_mtl_record_structure :
    (∀ pre rest, (∀ l ∈ pre, isNewMtlKey (lineKey l) = false) →
      load_mtl_records (pre ++ rest) = load_mtl_records rest) ∧
    (∀ lines mats, load_mtl_records lines = .ok mats →
      mats.length = lines.countP (fun l => isNewMtlKey (lineKey l))) ∧
    (∀ pre lnm seg rest mats,
      isNewMtlKey (lineKey lnm) = true →
      (∀ l ∈ seg, isNewMtlKey (lineKey l) = false) →
      (rest = [] ∨ ∃ l rest', rest = l :: rest' ∧
        isNewMtlKey (lineKey l) = true) →
      load_mtl_records (pre ++ lnm :: (seg ++ rest)) = .ok mats →
      ∃ rec', mats[pre.countP (fun l => isNewMtlKey (lineKey l))]? = some rec' ∧
        ∀ e ∈ rec', e.1 = "name" ∨ ∃ l ∈ seg, lineKey l = e.1) := by
  refine ⟨?_, ?_, ?_⟩
  · intro pre rest hpre
    exact parseMtlGo_skip pre rest hpre
  · intro lines mats h
    have hlen := parseMtlGo_length lines [] mats h
    simpa using hlen
  · intro pre lnm seg rest mats hknew hseg hrest h
    unfold load_mtl_records at h
    rw [parseMtlGo_append] at h
    cases hpre : parseMtlGo [] pre with
    | error e =>
        rw [hpre] at h
        exact absurd h (by simp)
    | ok acc1 =>
        rw [hpre] at h
        change parseMtlGo acc1 (lnm :: (seg ++ rest)) = Except.ok mats at h
        have hlen1 : acc1.length =
            pre.countP (fun l => isNewMtlKey (lineKey l)) := by
          have hc := parseMtlGo_length pre [] acc1 hpre
          simpa using hc
        rw [parseMtlGo_cons, if_pos hknew] at h
        cases hargs : lnm.tail with
        | nil =>
            rw [hargs] at h
            exact absurd h (by simp)
        | cons nm tl =>
            rw [hargs] at h
            have hk : (acc1 ++ [[("name", MtlValue.str nm)]])[acc1.length]? =
                some [("name", MtlValue.str nm)] :=
              List.getElem?_concat_length acc1 [("name", MtlValue.str nm)]
            obtain ⟨rec', hm, hprov⟩ := (parseMtlGo_record_prov (seg ++ rest)
              (acc1 ++ [[("name", MtlValue.str nm)]]) mats h acc1.length
              [("name", MtlValue.str nm)] hk).2 (by simp)
            have htw : (seg ++ rest).takeWhile
                (fun l' => !(isNewMtlKey (lineKey l'))) = seg := by
              apply takeWhile_all_append
              · intro l hl
                rw [hseg l hl]
                rfl
              · rcases hrest with rfl | ⟨l, rest', rfl, hl⟩
                · exact .inl rfl
                · exact .inr ⟨l, rest', rfl, by rw [hl]; rfl⟩
            rw [htw] at hprov
            refine ⟨rec', by rw [← hlen1]; exact hm, ?_⟩
            intro e he
            rcases hprov e he with hin | ⟨l, hl, he'⟩
            · left
              rw [List.mem_singleton.1 hin]
            · exact .inr ⟨l, hl, he'⟩

/-- Witness for C10: a stray line before the first `newmtl` is dropped;
the two-record file `newmtl a / ns 1 / newmtl m / kd 1` parses to two
records, and its SECOND record (at position 1, one earlier directive)
holds exactly its `name` and the `kd` key of its own segment. -/
theorem load_mtl_record_structure_witness :
    load_mtl_records ([["stray", "7"]] ++ [["newmtl", "m"], ["kd", "1"]]) =
      load_mtl_records [["newmtl", "m"], ["kd", "1"]] ∧
    ([[("name", MtlValue.str "m"), ("kd", MtlValue.vec ["1"])]] :
        List RawMaterial).length =
      ([["newmtl", "m"], ["kd", "1"]] : List (List String)).countP
        (fun l => isNewMtlKey (lineKey l)) ∧
    (∃ rec', ([[("name", MtlValue.str "a"), ("ns", MtlValue.str "1")],
        [("name", MtlValue.str "m"), ("kd", MtlValue.vec ["1"])]] :
        List RawMaterial)[([["newmtl", "a"], ["ns", "1"]] :
          List (List String)).countP (fun l => isNewMtlKey (lineKey l))]? =
        some rec' ∧
      ∀ e ∈ rec', e.1 = "name" ∨ ∃ l ∈ [["kd", "1"]], lineKey l = e.1) :=
  ⟨load_mtl_record_structure.1 [["stray", "7"]] [["newmtl", "m"], ["kd", "1"]]
      (by decide),
   load_mtl_record_structure.2.1 [["newmtl", "m"], ["kd", "1"]]
      [[("name", MtlValue.str "m"), ("kd", MtlValue.vec ["1"])]] (by decide),
   load_mtl_record_structure.2.2 [["newmtl", "a"], ["ns", "1"]] ["newmtl", "m"]
      [["kd", "1"]] []
      [[("name", MtlValue.str "a"), ("ns", MtlValue.str "1")],
        [("name", MtlValue.str "m"), ("kd", MtlValue.vec ["1"])]] (by decide)
      (by decide) (.inl rfl) (by decide)⟩

/-- Witness for C9: clearing a 1x1 `ks` buffer whose pixel is `(7, 3)`
leaves head-channel zero and tail intact. -/
theorem clear_ks_occlusion_witness :
    ((((applyClearKs true ⟨"k", "pbr", exTex, ⟨1, 1, [[[7, 3]]]⟩, none⟩).ks.mips.getD
        0 []).getD 0 []).head? =
      ((((⟨"k", "pbr", exTex, ⟨1, 1, [[[7, 3]]]⟩, none⟩ : Material)).ks.mips.getD
        0 []).getD 0 []).head?.map (fun _ => (0:ℚ))) ∧
    ((((applyClearKs true ⟨"k", "pbr", exTex, ⟨1, 1, [[[7, 3]]]⟩, none⟩).ks.mips.getD
        0 []).getD 0 []).tail =
      ((((⟨"k", "pbr", exTex, ⟨1, 1, [[[7, 3]]]⟩, none⟩ : Material)).ks.mips.getD
        0 []).getD 0 []).tail) ∧
    (applyClearKs true ⟨"k", "pbr", exTex, ⟨1, 1, [[[7, 3]]]⟩, none⟩).ks.mips.length =
      (⟨"k", "pbr", exTex, ⟨1, 1, [[[7, 3]]]⟩, none⟩ : Material).ks.mips.length :=
  clear_ks_occlusion ⟨"k", "pbr", exTex, ⟨1, 1, [[[7, 3]]]⟩, none⟩ 0 0

end NvdiffMat
